import Mathlib

/-!
Verification of the include-flattening tool (`tools/flatten_yaml.py`) and the
whitespace normalizer pre-pass (`tools/normalize_yaml.py`).

The Python code is shallowly embedded over `List Char` (one list per text
line; a document is a `List (List Char)` as produced by `str.split('\n')`).
The file system and path resolution (`resolve_include_path`, `os.path.exists`,
`read_file`) are modelled as an abstract lookup `fs : List Char → Option (List
Char)` from the sanitized relative reference (`include_rel_path` in the
source) to the raw text of the referenced file; `resolve_include_path` is a
deterministic function of that reference for the fixed base directory of one
run, so the lookup is a faithful model of one flattening run.

Python's `\s`, `str.strip` and `str.lower` are Unicode-aware; the model
restricts them to their ASCII behaviour, which coincides with Python on all
ASCII input (the YAML sources the tool processes).
-/

/-- Python's `\s` character class, restricted to ASCII:
space, tab, newline, carriage return, vertical tab, form feed. -/
def pySpace (c : Char) : Bool :=
  c = ' ' || c = '\t' || c = '\n' || c = '\r' || c = '\x0b' || c = '\x0c'

/-- Python `str.lstrip()` (ASCII whitespace). -/
def lstrip (s : List Char) : List Char := s.dropWhile pySpace

/-- Python `str.rstrip()` (ASCII whitespace). -/
def rstrip (s : List Char) : List Char := (s.reverse.dropWhile pySpace).reverse

/-- Python `str.strip()` (ASCII whitespace). -/
def strip (s : List Char) : List Char := rstrip (lstrip s)

/-- Python `text.replace(a, b)` for a single-character pattern `a` and
single-character replacement `b`: character-wise substitution. -/
def replace1 (a b : Char) (s : List Char) : List Char :=
  s.map fun c => if c = a then b else c

/-- `normalize_spaces` (flatten_yaml.py lines 26-28):
`text.replace(NBSP, ' ').replace(FIGSP, ' ').replace(NNBSP, ' ')` where
NBSP = U+00A0, FIGSP = U+2007, NNBSP = U+202F. -/
def normalize_spaces (s : List Char) : List Char :=
  replace1 '\u202F' ' ' (replace1 '\u2007' ' ' (replace1 '\u00A0' ' ' s))

/-- Python `str.split('\n')`. -/
def splitNL : List Char → List (List Char)
  | [] => [[]]
  | c :: t =>
    if c = '\n' then [] :: splitNL t
    else
      match splitNL t with
      | h :: r => (c :: h) :: r
      | [] => [[c]]

/-- Python `'\n'.join(lines)`. -/
def joinNL : List (List Char) → List Char
  | [] => []
  | [l] => l
  | l :: r => l ++ '\n' :: joinNL r

/-- Python `text.replace('\r\n', '\n')`: one left-to-right non-overlapping
scan replacing each CRLF pair. -/
def replaceCRLF : List Char → List Char
  | [] => []
  | ['\r'] => ['\r']
  | '\r' :: '\n' :: t => '\n' :: replaceCRLF t
  | c :: t => c :: replaceCRLF t

namespace NormalizeYaml

/-- `normalize` (normalize_yaml.py lines 11-17): replace the three Unicode
spaces, unify CRLF and lone CR to LF, and right-strip every line. -/
def normalize (s : List Char) : List Char :=
  let s1 := replace1 '\u202F' ' ' (replace1 '\u2007' ' ' (replace1 '\u00A0' ' ' s))
  let s2 := replace1 '\r' '\n' (replaceCRLF s1)
  joinNL ((splitNL s2).map rstrip)

end NormalizeYaml

/-- `indent_block` (flatten_yaml.py lines 44-46), at line granularity:
`'\n'.join((pad + line) if line else '' for line in text.split('\n'))`.
The Python function takes and returns a joined string; the driver appends its
result as a single element of `out` and joins everything with `'\n'` at the
end, which produces the same final text as appending these lines one by one. -/
def indent_block (textLines : List (List Char)) (spaces : Nat) : List (List Char) :=
  textLines.map fun l => if l = [] then [] else List.replicate spaces ' ' ++ l

/-!
`INCLUDE_RE = re.compile(r'^(\s*)-\s*!include\s+(?:file:\s*)?(.+?)\s*$')`.

The leading `(\s*)` is forced to the maximal whitespace run (backtracking it
would put a whitespace character where `-` must match), and so is the `\s*`
after `-` (the next literal is `!`).  After the literal `!include`:
`\s+` takes the maximal whitespace run first; the optional `file:` group is
tried greedily with its own maximal `\s*`; `(.+?)\s*$` on the remaining tail
`t` succeeds iff `t` is non-empty, yielding `rstrip t` when that is non-empty
and the single (whitespace) head character of `t` when `t` is all whitespace.
Backtracking orders: the inner `\s*` gives back one character when the lazy
group would otherwise be empty; the optional group is skipped when the tail is
exactly `file:`; `\s+` gives back one character when the whole tail after
`!include` is whitespace of length ≥ 2.
-/

/-- `(.+?)\s*$` applied to a tail `t`: group value, if any. -/
def lazyTail (t : List Char) : Option (List Char) :=
  match t with
  | [] => none
  | c :: _ =>
    match rstrip t with
    | [] => some [c]
    | r => some r

/-- Group 2 of `INCLUDE_RE`: the part `\s+(?:file:\s*)?(.+?)\s*$` applied to
the text following the literal `!include`. -/
def afterInclude (r4 : List Char) : Option (List Char) :=
  match r4 with
  | [] => none
  | c :: _ =>
    if !pySpace c then none
    else
      let m := (r4.takeWhile pySpace).length
      let t0 := r4.drop m
      if t0 = [] then
        if m ≥ 2 then some [r4.getLast!] else none
      else
        if "file:".toList.isPrefixOf t0 then
          let t0' := t0.drop 5
          let k := (t0'.takeWhile pySpace).length
          let t1 := t0'.drop k
          if t1 ≠ [] then lazyTail t1
          else if k ≥ 1 then some [t0'.getLast!]
          else lazyTail t0
        else lazyTail t0

/-- `INCLUDE_RE.match(line)` (flatten_yaml.py line 53): returns
`(indent, raw_target)` = (group 1, group 2) on success. -/
def matchInclude (line : List Char) : Option (List Char × List Char) :=
  let ind := line.takeWhile pySpace
  match line.drop ind.length with
  | '-' :: r2 =>
    let r3 := r2.dropWhile pySpace
    if "!include".toList.isPrefixOf r3 then
      match afterInclude (r3.drop 8) with
      | some tgt => some (ind, tgt)
      | none => none
    else none
  | _ => none

/-- `extLen t`: does `t` begin with `\.ya?ml`?  The greedy `a?` tries `.yaml`
before `.yml`; returns the length of the matched extension. -/
def extLen (t : List Char) : Option Nat :=
  if ".yaml".toList.isPrefixOf t then some 5
  else if ".yml".toList.isPrefixOf t then some 4
  else none

/-- The backtracking scan of `[^\s]+\.ya?ml` at a fixed start: the greedy
`[^\s]+` tries its maximal length `r` (the whitespace-free run) first and
shrinks; the first split `p` (largest first) whose tail begins with `\.ya?ml`
wins, and the match is `s[0 .. p+extLen)`. -/
def bestSplit (s : List Char) : Nat → Option (List Char)
  | 0 => none
  | p + 1 =>
    match extLen (s.drop (p + 1)) with
    | some v => some (s.take (p + 1 + v))
    | none => bestSplit s p

/-- `re.search(r'([^\s]+\.ya?ml)', s)` restricted to a match starting at
position 0: requires a non-whitespace head, then scans splits descending. -/
def searchFrom0 (s : List Char) : Option (List Char) :=
  match s with
  | [] => none
  | c :: _ =>
    if pySpace c then none
    else bestSplit s (s.takeWhile (fun x => !pySpace x)).length

/-- `re.search(r'([^\s]+\.ya?ml)', s)` (flatten_yaml.py line 96): leftmost
start position wins. -/
def searchYamlPath : List Char → Option (List Char)
  | [] => none
  | c :: t =>
    match searchFrom0 (c :: t) with
    | some m => some m
    | none => searchYamlPath t

/-- The target sanitization of the driver (flatten_yaml.py lines 76-100):
drop an inline `#` comment, strip, drop a `?` query suffix (re-stripping),
drop one case-insensitive `file:` prefix (re-stripping), and finally prefer
the first `[^\s]+\.ya?ml` match if one exists. -/
def sanitize (raw0 : List Char) : List Char :=
  let raw1 := raw0.takeWhile (fun c => c != '#')
  let raw2 := strip raw1
  let path1 := if raw2.contains '?' then strip (raw2.takeWhile (fun c => c != '?')) else raw2
  let path2 :=
    if "file:".toList.isPrefixOf (path1.map Char.toLower) then strip (path1.drop 5)
    else path1
  match searchYamlPath path2 with
  | some p => p
  | none => path2

/-- `re.match(re.escape(indent) + r'\s+', l)` (flatten_yaml.py line 105):
`l` starts with the directive's indent followed by at least one more
whitespace character. -/
def isContinuation (indent l : List Char) : Bool :=
  indent.isPrefixOf l &&
    (match l.drop indent.length with
     | c :: _ => pySpace c
     | [] => false)

/-- The args-block collection (flatten_yaml.py lines 102-111): if the very
next line is a continuation whose `lstrip` starts with `args:`, collect it
and every immediately following continuation line.  Returns the collected
block and the remaining lines (the scan resumes at `j`). -/
def collectArgs (indent : List Char) (rest : List (List Char)) :
    List (List Char) × List (List Char) :=
  match rest with
  | [] => ([], [])
  | l :: ls =>
    if isContinuation indent l && "args:".toList.isPrefixOf (lstrip l) then
      (l :: ls.takeWhile (isContinuation indent), ls.dropWhile (isContinuation indent))
    else ([], l :: ls)

/-- `re.match(r'^\s*[\w\-\"]+\s*:', first_line)` (flatten_yaml.py line 137),
with `\w` restricted to ASCII: after the (forced maximal) leading whitespace,
a non-empty run of word characters, hyphens or double quotes, then optional
whitespace, then a colon. -/
def isKeyed (l : List Char) : Bool :=
  let t := l.dropWhile pySpace
  let w := t.takeWhile fun c => c.isAlphanum || c = '_' || c = '-' || c = '"'
  w ≠ [] &&
    (match (t.drop w.length).dropWhile pySpace with
     | ':' :: _ => true
     | _ => false)

/-- `first_idx` (flatten_yaml.py lines 128-131): the while loop skipping the
leading blank (whitespace-only) lines of the included file. -/
def firstContentIdx (nl : List (List Char)) : Nat :=
  (nl.takeWhile fun l => (strip l).isEmpty).length

/-- `first_line` (flatten_yaml.py line 134): the first non-blank line, or the
empty string when every line is blank. -/
def firstContentLine (nl : List (List Char)) : List Char :=
  (nl.drop (firstContentIdx nl)).headD []

/-- The fragment inlining of the driver (flatten_yaml.py lines 126-145),
applied to the already space-normalized fragment text: skip leading blank
lines, then either splice a keyed first line as a list item followed by the
re-indented remainder (`if rest.strip():` is truthy iff some remaining line
is non-blank), or wrap the whole fragment in a literal block. -/
def inlineFragment (indent : List Char) (incContent : List Char) : List (List Char) :=
  let incLines := splitNL incContent
  let dash := indent ++ ('-' :: ' ' :: [])
  let first_line := firstContentLine incLines
  if isKeyed first_line then
    let restL := incLines.drop (firstContentIdx incLines + 1)
    (dash ++ strip first_line) ::
      (if restL.any fun l => !(strip l).isEmpty then indent_block restL (indent.length + 2)
       else [])
  else
    -- `indent_block(inc_content, ...)` splits `inc_content` again: `incLines`.
    (dash ++ ['|']) :: indent_block incLines (indent.length + 2)

/-- The line list of a fragment as the driver sees it at inline time
(flatten_yaml.py lines 125-126): its own `normalize_spaces`, then split. -/
def fragLines (frag : List Char) : List (List Char) :=
  splitNL (normalize_spaces frag)

/-- The args trace comments (flatten_yaml.py lines 147-151). -/
def argsTrace (indent : List Char) (args : List (List Char)) : List (List Char) :=
  if args = [] then []
  else
    (indent ++ "  # ---- args (preserved for reference) ----".toList) ::
      args.map fun a => indent ++ "  # ".toList ++ strip a

/-- One driver step plus recursion, with a fuel argument (flatten_yaml.py
lines 64-153).  The loop of the source advances `i` by 1 on a non-matching
line and to `j` (one past the collected args block) on a directive, so every
iteration consumes at least one input line; `fuel = ` initial line count
therefore never runs out (claim about `flattenSteps` below). -/
def flattenAux (fs : List Char → Option (List Char)) :
    Nat → List (List Char) → List (List Char)
  | 0, _ => []
  | _, [] => []
  | fuel + 1, line :: rest =>
    match matchInclude line with
    | none => line :: flattenAux fs fuel rest
    | some (indent, rawTarget) =>
      let ref := sanitize rawTarget
      let args := (collectArgs indent rest).1
      let rest' := (collectArgs indent rest).2
      match fs ref with
      | none => line :: (args ++ flattenAux fs fuel rest')
      | some content =>
        inlineFragment indent (normalize_spaces content)
          ++ argsTrace indent args
          ++ flattenAux fs fuel rest'

/-- The flattening pass at line granularity: the body of `flatten`
(flatten_yaml.py lines 55-155) after the initial `normalize_spaces` and
`split('\n')` and before the final `'\n'.join`. -/
def flatten (fs : List Char → Option (List Char)) (lines : List (List Char)) :
    List (List Char) :=
  flattenAux fs lines.length lines

/-- `flatten` on whole-document text: `'\n'.join` of the pass over
`normalize_spaces(src).split('\n')` (flatten_yaml.py lines 57-58 and 155). -/
def flattenDoc (fs : List Char → Option (List Char)) (src : List Char) : List Char :=
  joinNL (flatten fs (splitNL (normalize_spaces src)))

/-- Loop-iteration count of the driver: same cursor movement as
`flattenAux` (the cursor advance `i = j` does not depend on whether the
reference resolves). -/
def flattenStepsAux (fs : List Char → Option (List Char)) :
    Nat → List (List Char) → Nat
  | 0, _ => 0
  | _, [] => 0
  | fuel + 1, line :: rest =>
    match matchInclude line with
    | none => 1 + flattenStepsAux fs fuel rest
    | some (indent, _) => 1 + flattenStepsAux fs fuel (collectArgs indent rest).2

/-- Number of iterations of the driver loop on a document. -/
def flattenSteps (fs : List Char → Option (List Char)) (lines : List (List Char)) : Nat :=
  flattenStepsAux fs lines.length lines

/-! ### Basic properties of the args collector and the driver loop -/

theorem collectArgs_append (indent : List Char) (rest : List (List Char)) :
    (collectArgs indent rest).1 ++ (collectArgs indent rest).2 = rest := by
  cases rest with
  | nil => rfl
  | cons l ls =>
    simp only [collectArgs]
    split
    · simp [List.takeWhile_append_dropWhile]
    · rfl

theorem collectArgs_snd_le (indent : List Char) (rest : List (List Char)) :
    ((collectArgs indent rest).2).length ≤ rest.length := by
  cases rest with
  | nil => simp [collectArgs]
  | cons l ls =>
    simp only [collectArgs]
    split
    · exact le_trans ((List.dropWhile_sublist _).length_le) (by simp)
    · simp

theorem flattenAux_congr (fs : List Char → Option (List Char)) :
    ∀ f g lines, lines.length ≤ f → lines.length ≤ g →
      flattenAux fs f lines = flattenAux fs g lines := by
  intro f
  induction f with
  | zero =>
    intro g lines hf _
    have : lines = [] := List.length_eq_zero.mp (Nat.le_zero.mp hf)
    subst this
    cases g <;> rfl
  | succ f ih =>
    intro g lines hf hg
    cases lines with
    | nil => cases g <;> rfl
    | cons line rest =>
      cases g with
      | zero => simp at hg
      | succ g' =>
        simp only [List.length_cons] at hf hg
        have hf' : rest.length ≤ f := Nat.lt_succ_iff.mp (Nat.lt_of_lt_of_le (Nat.lt_succ_self _) hf)
        have hg' : rest.length ≤ g' := Nat.lt_succ_iff.mp (Nat.lt_of_lt_of_le (Nat.lt_succ_self _) hg)
        simp only [flattenAux]
        cases hm : matchInclude line with
        | none => dsimp only; rw [ih g' rest hf' hg']
        | some pr =>
          obtain ⟨ind, tgt⟩ := pr
          dsimp only
          have hr : ((collectArgs ind rest).2).length ≤ rest.length :=
            collectArgs_snd_le ind rest
          cases hfs : fs (sanitize tgt) with
          | none => dsimp only; rw [ih g' _ (le_trans hr hf') (le_trans hr hg')]
          | some content => dsimp only; rw [ih g' _ (le_trans hr hf') (le_trans hr hg')]

theorem flatten_nil (fs : List Char → Option (List Char)) : flatten fs [] = [] := rfl

theorem flatten_cons_copy (fs : List Char → Option (List Char)) (line : List Char)
    (rest : List (List Char)) (h : matchInclude line = none) :
    flatten fs (line :: rest) = line :: flatten fs rest := by
  simp only [flatten, List.length_cons, flattenAux, h]

theorem flatten_cons_miss (fs : List Char → Option (List Char)) (line ind tgt : List Char)
    (rest : List (List Char)) (h : matchInclude line = some (ind, tgt))
    (hfs : fs (sanitize tgt) = none) :
    flatten fs (line :: rest) =
      line :: ((collectArgs ind rest).1 ++ flatten fs (collectArgs ind rest).2) := by
  simp only [flatten, List.length_cons, flattenAux, h, hfs]
  rw [flattenAux_congr fs rest.length ((collectArgs ind rest).2).length _
    (collectArgs_snd_le ind rest) le_rfl]

theorem flatten_cons_hit (fs : List Char → Option (List Char)) (line ind tgt content : List Char)
    (rest : List (List Char)) (h : matchInclude line = some (ind, tgt))
    (hfs : fs (sanitize tgt) = some content) :
    flatten fs (line :: rest) =
      inlineFragment ind (normalize_spaces content)
        ++ argsTrace ind (collectArgs ind rest).1
        ++ flatten fs (collectArgs ind rest).2 := by
  simp only [flatten, List.length_cons, flattenAux, h, hfs]
  rw [flattenAux_congr fs rest.length ((collectArgs ind rest).2).length _
    (collectArgs_snd_le ind rest) le_rfl]

/-- The lines the collector leaves behind start (if at all) with a line that
fails the continuation pattern. -/
theorem dropWhile_head_false {α : Type} (p : α → Bool) :
    ∀ (l : List α) (y : α) (ys : List α), l.dropWhile p = y :: ys → p y = false := by
  intro l
  induction l with
  | nil => intro y ys h; simp [List.dropWhile] at h
  | cons a t ih =>
    intro y ys h
    by_cases hp : p a = true
    · rw [List.dropWhile_cons_of_pos hp] at h; exact ih y ys h
    · rw [List.dropWhile_cons_of_neg hp] at h
      cases h
      exact Bool.eq_false_iff.mpr hp

/-- Every line of a collected args block matches the continuation pattern. -/
theorem collectArgs_all_continuation (ind : List Char) (rest : List (List Char)) :
    ∀ x ∈ (collectArgs ind rest).1, isContinuation ind x = true := by
  cases rest with
  | nil => intro x hx; simp [collectArgs] at hx
  | cons l ls =>
    intro x hx
    simp only [collectArgs] at hx
    split at hx
    · rename_i hcond
      simp only [List.mem_cons] at hx
      rcases hx with h | h
      · subst h
        simp only [Bool.and_eq_true] at hcond
        exact hcond.1
      · exact List.mem_takeWhile_imp h
    · simp at hx

/-- With no resolvable references the driver copies every line: the pass is
the identity on the line list. -/
theorem flatten_none_id :
    ∀ (n : Nat) (lines : List (List Char)), lines.length ≤ n →
      flatten (fun _ => none) lines = lines := by
  intro n
  induction n with
  | zero =>
    intro lines h
    have h0 : lines = [] := List.length_eq_zero.mp (Nat.le_zero.mp h)
    subst h0; rfl
  | succ m ih =>
    intro lines h
    cases lines with
    | nil => rfl
    | cons line rest =>
      simp only [List.length_cons] at h
      have hr : rest.length ≤ m := by omega
      cases hm : matchInclude line with
      | none => rw [flatten_cons_copy _ _ _ hm, ih rest hr]
      | some pr =>
        obtain ⟨ind, tgt⟩ := pr
        rw [flatten_cons_miss (fun _ => none) line ind tgt rest hm rfl,
          ih _ (le_trans (collectArgs_snd_le ind rest) hr), collectArgs_append]

theorem splitNL_ne_nil (s : List Char) : splitNL s ≠ [] := by
  cases s with
  | nil => simp [splitNL]
  | cons c t =>
    simp only [splitNL]
    split
    · simp
    · cases h : splitNL t <;> simp

theorem joinNL_splitNL : ∀ s : List Char, joinNL (splitNL s) = s := by
  intro s
  induction s with
  | nil => rfl
  | cons c t ih =>
    simp only [splitNL]
    by_cases hc : c = '\n'
    · subst hc
      rw [if_pos rfl]
      cases h : splitNL t with
      | nil => exact absurd h (splitNL_ne_nil t)
      | cons a r =>
        rw [h] at ih
        show joinNL ([] :: a :: r) = '\n' :: t
        calc joinNL ([] :: a :: r) = [] ++ '\n' :: joinNL (a :: r) := rfl
        _ = '\n' :: t := by rw [ih]; rfl
    · rw [if_neg hc]
      cases h : splitNL t with
      | nil => exact absurd h (splitNL_ne_nil t)
      | cons a r =>
        rw [h] at ih
        cases r with
        | nil =>
          show joinNL [c :: a] = c :: t
          have ha : a = t := ih
          rw [ha]
          rfl
        | cons b r' =>
          show joinNL ((c :: a) :: b :: r') = c :: t
          calc joinNL ((c :: a) :: b :: r') = (c :: a) ++ '\n' :: joinNL (b :: r') := rfl
          _ = c :: (a ++ '\n' :: joinNL (b :: r')) := rfl
          _ = c :: t := by rw [show a ++ '\n' :: joinNL (b :: r') = joinNL (a :: b :: r') from rfl, ih]

/-! ### Claim theorems -/

/-- C3: for every include directive whose sanitized reference does not
resolve (the file-system lookup returns `none`), the output of the pass is
the original directive line, then every collected args-block line verbatim
and unchanged, and the scan then resumes immediately after the collected args
block (`i = j`): nothing is lost, nothing is guessed. -/
theorem claim_C3_unresolved_fallback (fs : List Char → Option (List Char))
    (line ind tgt : List Char) (rest : List (List Char))
    (hm : matchInclude line = some (ind, tgt))
    (hfs : fs (sanitize tgt) = none) :
    flatten fs (line :: rest) =
      line :: ((collectArgs ind rest).1 ++ flatten fs (collectArgs ind rest).2) :=
  flatten_cons_miss fs line ind tgt rest hm hfs

/-- Witness for C3: a concrete directive with a two-line args block and an
unresolvable reference passes through verbatim. -/
theorem claim_C3_witness :
    matchInclude "- !include gone.yaml".toList = some ([], "gone.yaml".toList) ∧
    (fun _ : List Char => (none : Option (List Char))) (sanitize "gone.yaml".toList) = none ∧
    flatten (fun _ => none)
        ["- !include gone.yaml".toList, "  args:".toList, "    x: 1".toList] =
      ["- !include gone.yaml".toList, "  args:".toList, "    x: 1".toList] :=
  ⟨by decide, rfl,
    (claim_C3_unresolved_fallback (fun _ => none) "- !include gone.yaml".toList []
        "gone.yaml".toList ["  args:".toList, "    x: 1".toList] (by decide) rfl).trans
      (by decide)⟩

/-- C9, counterexample: on a document whose only include is unresolved, the
flattening entry point returns exactly the input text and nothing else — no
count or list of unresolved references accompanies the result (the source's
`flatten` returns a single string, and the only reporting code, a debug
`print`, is commented out), so the condition is swallowed silently rather
than surfaced to the caller. -/
theorem claim_C9_counterexample :
    flatten (fun _ => none) ["- !include missing.yaml".toList] =
        ["- !include missing.yaml".toList] ∧
    flattenDoc (fun _ => none) "- !include missing.yaml".toList =
      "- !include missing.yaml".toList := by
  constructor
  · decide
  · decide

/-- C9, amended: unresolved references are not surfaced; the entry point
returns only the best-effort flattened text.  With no resolvable references
the pass is the identity on the line list, and the whole run returns exactly
the space-normalized input document. -/
theorem claim_C9_amended :
    (∀ lines, flatten (fun _ => none) lines = lines) ∧
    (∀ src, flattenDoc (fun _ => none) src = normalize_spaces src) := by
  constructor
  · intro lines
    exact flatten_none_id lines.length lines le_rfl
  · intro src
    unfold flattenDoc
    rw [flatten_none_id _ _ le_rfl, joinNL_splitNL]

/-- Bound on the number of driver-loop iterations. -/
theorem flattenStepsAux_le (fs : List Char → Option (List Char)) :
    ∀ (f : Nat) (lines : List (List Char)), flattenStepsAux fs f lines ≤ lines.length := by
  intro f
  induction f with
  | zero => intro lines; cases lines <;> simp [flattenStepsAux]
  | succ m ih =>
    intro lines
    cases lines with
    | nil => simp [flattenStepsAux]
    | cons line rest =>
      simp only [flattenStepsAux, List.length_cons]
      cases hm : matchInclude line with
      | none =>
        dsimp only
        have := ih rest
        omega
      | some pr =>
        obtain ⟨ind, tgt⟩ := pr
        dsimp only
        have h1 := ih (collectArgs ind rest).2
        have h2 := collectArgs_snd_le ind rest
        omega

/-- C10: the flattening pass terminates — every iteration of the driver loop
consumes at least one input line (a non-matching line advances the cursor by
1; a directive advances it past the directive line and its collected args
block, whose lengths add up to what was in front of the cursor), so the loop
runs at most once per input line. -/
theorem claim_C10_termination (fs : List Char → Option (List Char)) :
    (∀ lines, flattenSteps fs lines ≤ lines.length) ∧
    (∀ ind rest, ((collectArgs ind rest).1).length + ((collectArgs ind rest).2).length
        = rest.length) := by
  constructor
  · intro lines
    exact flattenStepsAux_le fs lines.length lines
  · intro ind rest
    have h := congrArg List.length (collectArgs_append ind rest)
    simpa using h

/-- Keyed branch of the inliner (flatten_yaml.py lines 137-141), spelled out:
the dash line carries the trimmed first content line, and the remainder is
emitted only when some remaining line is non-blank, each line re-indented by
`len(indent) + 2` spaces with empty lines left empty. -/
theorem inlineFragment_keyed (ind frag : List Char)
    (hk : isKeyed (firstContentLine (fragLines frag)) = true) :
    inlineFragment ind (normalize_spaces frag) =
      (ind ++ "- ".toList ++ strip (firstContentLine (fragLines frag))) ::
        (if ((fragLines frag).drop (firstContentIdx (fragLines frag) + 1)).any
              (fun l => !(strip l).isEmpty) then
           ((fragLines frag).drop (firstContentIdx (fragLines frag) + 1)).map
             (fun l => if l = [] then [] else List.replicate (ind.length + 2) ' ' ++ l)
         else []) := by
  simp only [fragLines] at hk ⊢
  simp only [inlineFragment, indent_block, hk, if_true]
  rfl

/-- Unstructured branch of the inliner (flatten_yaml.py lines 142-145),
spelled out: a literal-block marker, then the entire normalized fragment
re-indented by `len(indent) + 2` spaces with empty lines left empty. -/
theorem inlineFragment_unstructured (ind frag : List Char)
    (hk : isKeyed (firstContentLine (fragLines frag)) = false) :
    inlineFragment ind (normalize_spaces frag) =
      (ind ++ "- |".toList) ::
        (fragLines frag).map
          (fun l => if l = [] then [] else List.replicate (ind.length + 2) ' ' ++ l) := by
  simp only [fragLines] at hk ⊢
  simp only [inlineFragment, indent_block, hk, Bool.false_eq_true, if_false]
  rw [List.append_assoc]
  rfl

/-- C1: for every include directive with indent `ind` whose resolved
fragment's first non-blank line matches the keyed pattern, the pass replaces
the directive line by `ind ++ "- " ++` the trimmed first content line,
followed — when any remaining fragment line is non-blank — by the remaining
lines each re-indented by `ind.length + 2` spaces with empty lines left
empty (then the preserved-args comments, then the flattening of the lines
after the collected args block). -/
theorem claim_C1_keyed_inlining (fs : List Char → Option (List Char))
    (line ind tgt frag : List Char) (rest : List (List Char))
    (hm : matchInclude line = some (ind, tgt))
    (hfs : fs (sanitize tgt) = some frag)
    (hk : isKeyed (firstContentLine (fragLines frag)) = true) :
    flatten fs (line :: rest) =
      ((ind ++ "- ".toList ++ strip (firstContentLine (fragLines frag))) ::
        (if ((fragLines frag).drop (firstContentIdx (fragLines frag) + 1)).any
              (fun l => !(strip l).isEmpty) then
           ((fragLines frag).drop (firstContentIdx (fragLines frag) + 1)).map
             (fun l => if l = [] then [] else List.replicate (ind.length + 2) ' ' ++ l)
         else []))
      ++ argsTrace ind (collectArgs ind rest).1
      ++ flatten fs (collectArgs ind rest).2 := by
  rw [flatten_cons_hit fs line ind tgt frag rest hm hfs, inlineFragment_keyed ind frag hk]

/-- Witness for C1: the spec's keyed example.  Root line
`"  - !include file: frag.yaml"` with `frag.yaml` containing
`"name: x\nvalue: 1"` flattens to `"  - name: x"` and `"    value: 1"`. -/
theorem claim_C1_witness :
    matchInclude "  - !include file: frag.yaml".toList =
        some ("  ".toList, "frag.yaml".toList) ∧
    (fun s => if s = "frag.yaml".toList then some "name: x\nvalue: 1".toList else none)
        (sanitize "frag.yaml".toList) = some "name: x\nvalue: 1".toList ∧
    isKeyed (firstContentLine (fragLines "name: x\nvalue: 1".toList)) = true ∧
    flatten
        (fun s => if s = "frag.yaml".toList then some "name: x\nvalue: 1".toList else none)
        ["  - !include file: frag.yaml".toList] =
      ["  - name: x".toList, "    value: 1".toList] :=
  ⟨by decide, by decide, by decide,
    (claim_C1_keyed_inlining
        (fun s => if s = "frag.yaml".toList then some "name: x\nvalue: 1".toList else none)
        "  - !include file: frag.yaml".toList "  ".toList "frag.yaml".toList
        "name: x\nvalue: 1".toList [] (by decide) (by decide) (by decide)).trans
      (by decide)⟩

/-- C2: for every include directive with indent `ind` whose resolved
fragment's first non-blank line does not match the keyed pattern (including
an entirely blank fragment, whose first line is the empty string), the pass
emits `ind ++ "- |"` followed by the entire space-normalized fragment —
leading blank lines and first content line included — re-indented by
`ind.length + 2` spaces with empty lines left empty. -/
theorem claim_C2_unstructured_inlining (fs : List Char → Option (List Char))
    (line ind tgt frag : List Char) (rest : List (List Char))
    (hm : matchInclude line = some (ind, tgt))
    (hfs : fs (sanitize tgt) = some frag)
    (hk : isKeyed (firstContentLine (fragLines frag)) = false) :
    flatten fs (line :: rest) =
      ((ind ++ "- |".toList) ::
        (fragLines frag).map
          (fun l => if l = [] then [] else List.replicate (ind.length + 2) ' ' ++ l))
      ++ argsTrace ind (collectArgs ind rest).1
      ++ flatten fs (collectArgs ind rest).2 := by
  rw [flatten_cons_hit fs line ind tgt frag rest hm hfs, inlineFragment_unstructured ind frag hk]

/-- Witness for C2: the spec's unstructured example.  Root line
`"- !include other.yaml"` with `other.yaml` containing `"- a\n- b"` flattens
to `"- |"`, `"  - a"`, `"  - b"`. -/
theorem claim_C2_witness :
    matchInclude "- !include other.yaml".toList = some ([], "other.yaml".toList) ∧
    (fun s => if s = "other.yaml".toList then some "- a\n- b".toList else none)
        (sanitize "other.yaml".toList) = some "- a\n- b".toList ∧
    isKeyed (firstContentLine (fragLines "- a\n- b".toList)) = false ∧
    flatten (fun s => if s = "other.yaml".toList then some "- a\n- b".toList else none)
        ["- !include other.yaml".toList] =
      ["- |".toList, "  - a".toList, "  - b".toList] :=
  ⟨by decide, by decide, by decide,
    (claim_C2_unstructured_inlining
        (fun s => if s = "other.yaml".toList then some "- a\n- b".toList else none)
        "- !include other.yaml".toList [] "other.yaml".toList "- a\n- b".toList []
        (by decide) (by decide) (by decide)).trans
      (by decide)⟩

/-- C8, counterexample: the args trace comments do not reproduce the
original args lines verbatim — `out.append(indent + '  # ' + a.strip())`
strips each line, and every collected args line has leading whitespace (it
must extend the directive's indent), so the original line never reappears:
here the collected line `"  args:"` occurs in no output line, not even as a
contiguous substring; the trace comment carries only its trimmed content
`"args:"`. -/
theorem claim_C8_counterexample :
    flatten (fun s => if s = "a.yaml".toList then some "k: v".toList else none)
        ["- !include a.yaml".toList, "  args:".toList] =
      ["- k: v".toList, "  # ---- args (preserved for reference) ----".toList,
        "  # args:".toList] ∧
    ∀ l ∈ ["- k: v".toList, "  # ---- args (preserved for reference) ----".toList,
        "  # args:".toList], ¬ "  args:".toList <:+: l := by
  decide

/-- C8, amended: when the fragment is inlined and the collected args block is
non-empty, the output continues — immediately after the inlined fragment —
with one comment header line and then exactly one comment line per original
args line, each carrying the corresponding line's whitespace-trimmed content
(not the original line verbatim); the consumed args lines are not re-scanned:
the pass resumes after the collected block. -/
theorem claim_C8_args_trace (fs : List Char → Option (List Char))
    (line ind tgt frag : List Char) (rest : List (List Char))
    (hm : matchInclude line = some (ind, tgt))
    (hfs : fs (sanitize tgt) = some frag)
    (hargs : (collectArgs ind rest).1 ≠ []) :
    flatten fs (line :: rest) =
      inlineFragment ind (normalize_spaces frag)
        ++ ((ind ++ "  # ---- args (preserved for reference) ----".toList) ::
            ((collectArgs ind rest).1).map (fun a => ind ++ "  # ".toList ++ strip a))
        ++ flatten fs (collectArgs ind rest).2 ∧
    (collectArgs ind rest).1 ++ (collectArgs ind rest).2 = rest := by
  constructor
  · rw [flatten_cons_hit fs line ind tgt frag rest hm hfs]
    simp only [argsTrace, if_neg hargs]
  · exact collectArgs_append ind rest

/-- Witness for C8 (amended): a directive with a two-line args block over an
inlined fragment yields the header plus the two trimmed trace comments. -/
theorem claim_C8_witness :
    matchInclude "- !include a.yaml".toList = some ([], "a.yaml".toList) ∧
    (fun s => if s = "a.yaml".toList then some "k: v".toList else none)
        (sanitize "a.yaml".toList) = some "k: v".toList ∧
    (collectArgs [] ["  args:".toList, "    x: 1".toList]).1 ≠ [] ∧
    flatten (fun s => if s = "a.yaml".toList then some "k: v".toList else none)
        ["- !include a.yaml".toList, "  args:".toList, "    x: 1".toList] =
      ["- k: v".toList, "  # ---- args (preserved for reference) ----".toList,
        "  # args:".toList, "  # x: 1".toList] :=
  ⟨by decide, by decide, by decide,
    ((claim_C8_args_trace
        (fun s => if s = "a.yaml".toList then some "k: v".toList else none)
        "- !include a.yaml".toList [] "a.yaml".toList "k: v".toList
        ["  args:".toList, "    x: 1".toList] (by decide) (by decide) (by decide)).1).trans
      (by decide)⟩

/-- C4: every input line is accounted for exactly once.  The input splits
into consecutive, non-overlapping segments whose concatenation is exactly the
input (so no line is dropped and none is visited twice), the output is the
concatenation of the corresponding per-segment outputs in the same order, and
each segment is either a single non-matching line copied verbatim, or a
directive line together with its collected args block (each collected line
matching the continuation pattern), replaced as a whole by an inlined or
fallback block. -/
theorem claim_C4_line_accounting (fs : List Char → Option (List Char))
    (lines : List (List Char)) :
    ∃ segs : List (List (List Char) × List (List Char)),
      (segs.map Prod.fst).flatten = lines ∧
      (segs.map Prod.snd).flatten = flatten fs lines ∧
      ∀ p ∈ segs,
        (∃ l, p.1 = [l] ∧ matchInclude l = none ∧ p.2 = [l]) ∨
        (∃ l ind tgt a, p.1 = l :: a ∧ matchInclude l = some (ind, tgt) ∧
          ∀ x ∈ a, isContinuation ind x = true) := by
  suffices H : ∀ (n : Nat) (ls : List (List Char)), ls.length ≤ n →
      ∃ segs : List (List (List Char) × List (List Char)),
        (segs.map Prod.fst).flatten = ls ∧
        (segs.map Prod.snd).flatten = flatten fs ls ∧
        ∀ p ∈ segs,
          (∃ l, p.1 = [l] ∧ matchInclude l = none ∧ p.2 = [l]) ∨
          (∃ l ind tgt a, p.1 = l :: a ∧ matchInclude l = some (ind, tgt) ∧
            ∀ x ∈ a, isContinuation ind x = true) by
    exact H lines.length lines le_rfl
  intro n
  induction n with
  | zero =>
    intro ls h
    have h0 : ls = [] := List.length_eq_zero.mp (Nat.le_zero.mp h)
    subst h0
    exact ⟨[], by simp, by simp [flatten_nil], by simp⟩
  | succ m ih =>
    intro ls h
    cases ls with
    | nil => exact ⟨[], by simp, by simp [flatten_nil], by simp⟩
    | cons line rest =>
      simp only [List.length_cons] at h
      have hr : rest.length ≤ m := by omega
      cases hm : matchInclude line with
      | none =>
        obtain ⟨segs, h1, h2, h3⟩ := ih rest hr
        refine ⟨([line], [line]) :: segs, ?_, ?_, ?_⟩
        · simp [h1]
        · rw [flatten_cons_copy fs line rest hm]
          simp [h2]
        · intro p hp
          rcases List.mem_cons.mp hp with hp | hp
          · subst hp
            exact Or.inl ⟨line, rfl, hm, rfl⟩
          · exact h3 p hp
      | some pr =>
        obtain ⟨ind, tgt⟩ := pr
        have hra : ((collectArgs ind rest).2).length ≤ m :=
          le_trans (collectArgs_snd_le ind rest) hr
        obtain ⟨segs, h1, h2, h3⟩ := ih _ hra
        cases hfs : fs (sanitize tgt) with
        | none =>
          refine ⟨(line :: (collectArgs ind rest).1,
              line :: (collectArgs ind rest).1) :: segs, ?_, ?_, ?_⟩
          · simp only [List.map_cons, List.flatten_cons, h1]
            rw [List.cons_append, collectArgs_append]
          · rw [flatten_cons_miss fs line ind tgt rest hm hfs]
            simp only [List.map_cons, List.flatten_cons, h2]
            rw [List.cons_append]
          · intro p hp
            rcases List.mem_cons.mp hp with hp | hp
            · subst hp
              exact Or.inr ⟨line, ind, tgt, (collectArgs ind rest).1, rfl, hm,
                collectArgs_all_continuation ind rest⟩
            · exact h3 p hp
        | some content =>
          refine ⟨(line :: (collectArgs ind rest).1,
              inlineFragment ind (normalize_spaces content)
                ++ argsTrace ind (collectArgs ind rest).1) :: segs, ?_, ?_, ?_⟩
          · simp only [List.map_cons, List.flatten_cons, h1]
            rw [List.cons_append, collectArgs_append]
          · rw [flatten_cons_hit fs line ind tgt content rest hm hfs]
            simp only [List.map_cons, List.flatten_cons, h2, List.append_assoc]
          · intro p hp
            rcases List.mem_cons.mp hp with hp | hp
            · subst hp
              exact Or.inr ⟨line, ind, tgt, (collectArgs ind rest).1, rfl, hm,
                collectArgs_all_continuation ind rest⟩
            · exact h3 p hp

/-- C6, counterexample: the claim says collection stops at the first blank
line, but the collector's only test is the continuation pattern
`^<indent><whitespace>`, which a whitespace-only (blank) line deeper than the
directive's indent satisfies: after `"  args:"`, the blank line `"   "`
(three spaces; blank by the same `strip` test the code itself uses for
fragment lines) is collected rather than terminating the block. -/
theorem claim_C6_counterexample :
    collectArgs [] ["  args:".toList, "   ".toList] =
      (["  args:".toList, "   ".toList], []) ∧
    strip "   ".toList = [] := by
  decide

/-- C6, amended: the collector collects a block only when the very next line
is a continuation line (directive indent plus at least one more whitespace
character) whose trimmed content starts with `args:`; it then collects all
immediately following continuation lines, stopping at the first line that
fails the continuation pattern — every empty line, every line dedented to the
directive's indent or less, or end of document — while whitespace-only lines
deeper than the indent are collected, not treated as terminators. -/
theorem claim_C6_args_collection (ind : List Char) (rest : List (List Char)) :
    (collectArgs ind rest).1 ++ (collectArgs ind rest).2 = rest ∧
    ((collectArgs ind rest).1 = [] ∨
      ∃ l t, (collectArgs ind rest).1 = l :: t ∧
        isContinuation ind l = true ∧
        "args:".toList.isPrefixOf (lstrip l) = true ∧
        (∀ x ∈ t, isContinuation ind x = true) ∧
        ∀ y ys, (collectArgs ind rest).2 = y :: ys → isContinuation ind y = false) ∧
    ((collectArgs ind rest).1 = [] → ∀ l ls, rest = l :: ls →
      (isContinuation ind l && "args:".toList.isPrefixOf (lstrip l)) = false) := by
  have step : ∀ (l : List Char) (ls : List (List Char)),
      (isContinuation ind l && "args:".toList.isPrefixOf (lstrip l)) = true →
      collectArgs ind (l :: ls) =
        (l :: ls.takeWhile (isContinuation ind), ls.dropWhile (isContinuation ind)) := by
    intro l ls hcond
    unfold collectArgs
    dsimp only
    rw [if_pos hcond]
  have stepn : ∀ (l : List Char) (ls : List (List Char)),
      (isContinuation ind l && "args:".toList.isPrefixOf (lstrip l)) = false →
      collectArgs ind (l :: ls) = ([], l :: ls) := by
    intro l ls hcond
    unfold collectArgs
    dsimp only
    rw [if_neg (by rw [Bool.not_eq_true]; exact hcond)]
  refine ⟨collectArgs_append ind rest, ?_, ?_⟩
  · cases rest with
    | nil => exact Or.inl rfl
    | cons l ls =>
      cases hcond : (isContinuation ind l && "args:".toList.isPrefixOf (lstrip l)) with
      | false => exact Or.inl (by rw [stepn l ls hcond])
      | true =>
        rw [Bool.and_eq_true] at hcond
        have hcond' : (isContinuation ind l && "args:".toList.isPrefixOf (lstrip l)) = true := by
          rw [Bool.and_eq_true]; exact hcond
        refine Or.inr ⟨l, ls.takeWhile (isContinuation ind), ?_, hcond.1, hcond.2, ?_, ?_⟩
        · rw [step l ls hcond']
        · intro x hx
          exact List.mem_takeWhile_imp hx
        · intro y ys hy
          rw [step l ls hcond'] at hy
          exact dropWhile_head_false (isContinuation ind) ls y ys hy
  · intro hemp l ls heq
    subst heq
    cases hcond : (isContinuation ind l && "args:".toList.isPrefixOf (lstrip l)) with
    | false => rfl
    | true =>
      rw [step l ls hcond] at hemp
      exact absurd hemp (by simp)

/-- C7, counterexample: the normalization the driver applies (to the root
document at the start of a run and to every fragment at inline time) is
`normalize_spaces`, which touches only the three Unicode spaces: it leaves
`"a\r\nb"` unchanged instead of unifying the CRLF to `"a\nb"` as the claim
asserts. -/
theorem claim_C7_counterexample :
    normalize_spaces "a\r\nb".toList = "a\r\nb".toList ∧
    normalize_spaces "a\r\nb".toList ≠ "a\nb".toList := by
  decide

theorem mem_rstrip {c : Char} {l : List Char} (h : c ∈ rstrip l) : c ∈ l := by
  unfold rstrip at h
  rw [List.mem_reverse] at h
  have := (List.dropWhile_sublist (l := l.reverse) (p := pySpace)).subset h
  rwa [List.mem_reverse] at this

theorem mem_joinNL {c : Char} :
    ∀ {L : List (List Char)}, c ∈ joinNL L → c = '\n' ∨ ∃ l ∈ L, c ∈ l := by
  intro L
  induction L with
  | nil => intro h; simp [joinNL] at h
  | cons a r ih =>
    intro h
    cases r with
    | nil =>
      exact Or.inr ⟨a, by simp, by simpa [joinNL] using h⟩
    | cons b r' =>
      have h' : c ∈ a ++ '\n' :: joinNL (b :: r') := h
      rcases List.mem_append.mp h' with h1 | h1
      · exact Or.inr ⟨a, by simp, h1⟩
      · rcases List.mem_cons.mp h1 with h2 | h2
        · exact Or.inl h2
        · rcases ih h2 with h3 | ⟨l, hl, hcl⟩
          · exact Or.inl h3
          · exact Or.inr ⟨l, by simp [hl], hcl⟩

theorem mem_splitNL {c : Char} :
    ∀ {s : List Char} {l : List Char}, l ∈ splitNL s → c ∈ l → c ∈ s := by
  intro s
  induction s with
  | nil =>
    intro l hl hc
    simp [splitNL] at hl
    subst hl
    simp at hc
  | cons a t ih =>
    intro l hl hc
    simp only [splitNL] at hl
    by_cases ha : a = '\n'
    · rw [if_pos ha] at hl
      rcases List.mem_cons.mp hl with h1 | h1
      · subst h1; simp at hc
      · exact List.mem_cons_of_mem a (ih h1 hc)
    · rw [if_neg ha] at hl
      cases hsp : splitNL t with
      | nil => exact absurd hsp (splitNL_ne_nil t)
      | cons h0 r0 =>
        rw [hsp] at hl
        rcases List.mem_cons.mp hl with h1 | h1
        · subst h1
          rcases List.mem_cons.mp hc with h2 | h2
          · exact h2 ▸ List.mem_cons_self a t
          · exact List.mem_cons_of_mem a (ih (hsp ▸ List.mem_cons_self h0 r0) h2)
        · exact List.mem_cons_of_mem a (ih (hsp ▸ List.mem_cons_of_mem h0 h1) hc)

theorem not_mem_replace1 {a b : Char} (hne : b ≠ a) (x : List Char) :
    a ∉ replace1 a b x := by
  intro h
  rcases List.mem_map.mp h with ⟨d, _, hd⟩
  by_cases hda : d = a
  · rw [if_pos hda] at hd
    exact hne hd
  · rw [if_neg hda] at hd
    exact hda hd

/-- C7, amended: the normalization applied by the flattening run
(`normalize_spaces`, applied to the root document at the start and to every
fragment at inline time) replaces exactly the three Unicode space code points
U+00A0, U+2007, U+202F by the ASCII space, character by character, and
changes nothing else — in particular it performs no line-ending unification.
The `\r\n` / lone-`\r` to `\n` unification (together with right-stripping of
every line) is performed only by the separate pre-pass `normalize` of
normalize_yaml.py, whose output never contains a carriage return. -/
theorem claim_C7_normalization :
    (∀ s : List Char, normalize_spaces s =
      s.map (fun c => if c = '\u00A0' ∨ c = '\u2007' ∨ c = '\u202F' then ' ' else c)) ∧
    (∀ s : List Char, '\r' ∉ NormalizeYaml.normalize s) := by
  constructor
  · intro s
    simp only [normalize_spaces, replace1, List.map_map]
    refine List.map_congr_left ?_
    intro c _
    simp only [Function.comp]
    by_cases h1 : c = '\u00A0'
    · subst h1; decide
    · by_cases h2 : c = '\u2007'
      · subst h2; decide
      · by_cases h3 : c = '\u202F'
        · subst h3; decide
        · simp [h1, h2, h3]
  · intro s h
    simp only [NormalizeYaml.normalize] at h
    rcases mem_joinNL h with h1 | ⟨l, hl, hcl⟩
    · exact absurd h1 (by decide)
    · rcases List.mem_map.mp hl with ⟨l0, hl0, hll0⟩
      subst hll0
      have h2 : '\r' ∈ l0 := mem_rstrip hcl
      have h3 : '\r' ∈ replace1 '\r' '\n'
          (replaceCRLF (replace1 '\u202F' ' ' (replace1 '\u2007' ' ' (replace1 '\u00A0' ' ' s)))) :=
        mem_splitNL hl0 h2
      exact not_mem_replace1 (by decide) _ h3

/-! ### Properties of the reference sanitizer (claim C5) -/

theorem takeWhile_all {α : Type} (p : α → Bool) :
    ∀ l : List α, (∀ c ∈ l, p c = true) → l.takeWhile p = l := by
  intro l
  induction l with
  | nil => intro _; rfl
  | cons a t ih =>
    intro h
    rw [List.takeWhile_cons_of_pos (h a (List.mem_cons_self a t))]
    rw [ih fun c hc => h c (List.mem_cons_of_mem a hc)]

theorem dropWhile_idem {α : Type} (p : α → Bool) (l : List α) :
    (l.dropWhile p).dropWhile p = l.dropWhile p := by
  cases h : l.dropWhile p with
  | nil => rfl
  | cons y ys =>
    rw [List.dropWhile_cons_of_neg]
    simp [dropWhile_head_false p l y ys h]

theorem lstrip_idem (s : List Char) : lstrip (lstrip s) = lstrip s :=
  dropWhile_idem pySpace s

theorem rstrip_idem (s : List Char) : rstrip (rstrip s) = rstrip s := by
  unfold rstrip
  rw [List.reverse_reverse, dropWhile_idem]

theorem rstrip_prefix (s : List Char) : rstrip s <+: s := by
  have h : List.dropWhile pySpace s.reverse <:+ s.reverse := List.dropWhile_suffix pySpace
  have h2 : (List.dropWhile pySpace s.reverse).reverse <+: s.reverse.reverse :=
    List.reverse_prefix.mpr h
  rwa [List.reverse_reverse] at h2

theorem lstrip_rstrip (s : List Char) (h : lstrip s = s) : lstrip (rstrip s) = rstrip s := by
  cases s with
  | nil => rfl
  | cons c t =>
    have hc : pySpace c = false := by
      by_cases hpc : pySpace c = true
      · exfalso
        unfold lstrip at h
        rw [List.dropWhile_cons_of_pos hpc] at h
        have := congrArg List.length h
        have hle := (List.dropWhile_sublist (l := t) (p := pySpace)).length_le
        simp at this
        omega
      · exact Bool.eq_false_iff.mpr hpc
    cases hr : rstrip (c :: t) with
    | nil => rfl
    | cons d r =>
      have hpre : d :: r <+: c :: t := hr ▸ rstrip_prefix (c :: t)
      obtain ⟨w, hw⟩ := hpre
      have hdc : d = c := by
        cases hw
        rfl
      subst hdc
      unfold lstrip
      rw [List.dropWhile_cons_of_neg (by simp [hc])]

theorem strip_idem (s : List Char) : strip (strip s) = strip s := by
  unfold strip
  rw [lstrip_rstrip (lstrip s) (lstrip_idem s), rstrip_idem]

theorem mem_lstrip {c : Char} {l : List Char} (h : c ∈ lstrip l) : c ∈ l :=
  (List.dropWhile_sublist pySpace).subset h

theorem mem_strip {c : Char} {l : List Char} (h : c ∈ strip l) : c ∈ l :=
  mem_lstrip (mem_rstrip h)

theorem strip_no_ws (s : List Char) (h : ∀ c ∈ s, pySpace c = false) : strip s = s := by
  have hl : lstrip s = s := by
    cases s with
    | nil => rfl
    | cons c t =>
      unfold lstrip
      rw [List.dropWhile_cons_of_neg (by simp [h c (List.mem_cons_self c t)])]
  have hr : rstrip s = s := by
    unfold rstrip
    cases hrev : s.reverse with
    | nil => simp [List.reverse_eq_nil_iff.mp hrev]
    | cons d r =>
      have hd : d ∈ s := by
        rw [← List.mem_reverse, hrev]
        exact List.mem_cons_self d r
      rw [List.dropWhile_cons_of_neg (by simp [h d hd]), ← hrev, List.reverse_reverse]
  rw [strip, hl, hr]

/-- What the extension matcher accepts. -/
theorem extLen_some {t : List Char} {v : Nat} (h : extLen t = some v) :
    t.take v = ".yaml".toList ∧ v = 5 ∨ t.take v = ".yml".toList ∧ v = 4 := by
  unfold extLen at h
  by_cases h5 : ".yaml".toList.isPrefixOf t = true
  · rw [if_pos h5] at h
    cases h
    left
    refine ⟨?_, rfl⟩
    have := List.prefix_iff_eq_take.mp (List.isPrefixOf_iff_prefix.mp h5)
    exact this.symm
  · rw [if_neg h5] at h
    by_cases h4 : ".yml".toList.isPrefixOf t = true
    · rw [if_pos h4] at h
      cases h
      right
      refine ⟨?_, rfl⟩
      have := List.prefix_iff_eq_take.mp (List.isPrefixOf_iff_prefix.mp h4)
      exact this.symm
    · rw [if_neg h4] at h
      cases h

/-- Shape of a successful descending split scan. -/
theorem bestSplit_some_shape (s : List Char) :
    ∀ (n : Nat) (m : List Char), bestSplit s n = some m →
      ∃ p v, 1 ≤ p ∧ p ≤ n ∧ extLen (s.drop p) = some v ∧ m = s.take (p + v) ∧
        ∀ q, p < q → q ≤ n → extLen (s.drop q) = none := by
  intro n
  induction n with
  | zero => intro m h; simp [bestSplit] at h
  | succ p ih =>
    intro m h
    unfold bestSplit at h
    cases hext : extLen (s.drop (p + 1)) with
    | some v =>
      rw [hext] at h
      cases h
      exact ⟨p + 1, v, by omega, le_rfl, hext, rfl, fun q h1 h2 => by omega⟩
    | none =>
      rw [hext] at h
      obtain ⟨p0, v0, hp1, hpn, he, hm, hmax⟩ := ih m h
      refine ⟨p0, v0, hp1, by omega, he, hm, ?_⟩
      intro q h1 h2
      rcases Nat.lt_succ_iff_lt_or_eq.mp (Nat.lt_succ_of_le h2) with h3 | h3
      · exact hmax q h1 (by omega)
      · rw [h3]
        exact hext

/-- Completeness of the descending split scan: the largest admissible split
wins. -/
theorem bestSplit_complete (s : List Char) :
    ∀ (n p v : Nat), 1 ≤ p → p ≤ n → extLen (s.drop p) = some v →
      (∀ q, p < q → q ≤ n → extLen (s.drop q) = none) →
      bestSplit s n = some (s.take (p + v)) := by
  intro n
  induction n with
  | zero => intro p v h1 h2 _ _; omega
  | succ k ih =>
    intro p v h1 h2 hext hmax
    by_cases hpk : p = k + 1
    · subst hpk
      unfold bestSplit
      rw [hext]
    · have hlt : p ≤ k := by omega
      have hnone : extLen (s.drop (k + 1)) = none := hmax (k + 1) (by omega) le_rfl
      unfold bestSplit
      rw [hnone]
      exact ih p v h1 hlt hext fun q hq1 hq2 => hmax q hq1 (by omega)

/-- No strict suffix of `.yaml` begins with `\.ya?ml` again. -/
theorem extLen_drop_yaml : ∀ k : Nat, extLen (".yaml".toList.drop (k + 1)) = none
  | 0 => by decide
  | 1 => by decide
  | 2 => by decide
  | 3 => by decide
  | (n + 4) => by
      have h5 : (".yaml".toList).length = 5 := by decide
      rw [List.drop_eq_nil_of_le (by omega)]
      decide

/-- No strict suffix of `.yml` begins with `\.ya?ml` again. -/
theorem extLen_drop_yml : ∀ k : Nat, extLen (".yml".toList.drop (k + 1)) = none
  | 0 => by decide
  | 1 => by decide
  | 2 => by decide
  | (n + 3) => by
      have h4 : (".yml".toList).length = 4 := by decide
      rw [List.drop_eq_nil_of_le (by omega)]
      decide

/-- Characters of a successful split-scan match are non-whitespace. -/
theorem bestSplit_no_ws {s : List Char} {n : Nat} {m : List Char}
    (hn : n ≤ (s.takeWhile (fun x => !pySpace x)).length)
    (h : bestSplit s n = some m) : ∀ c ∈ m, pySpace c = false := by
  obtain ⟨p, v, hp1, hpn, hext, hm, _⟩ := bestSplit_some_shape s n m h
  subst hm
  intro c hc
  rw [List.take_add] at hc
  rcases List.mem_append.mp hc with h1 | h1
  · have hlen : (s.take p).length ≤ (s.takeWhile (fun x => !pySpace x)).length := by
      have : (s.take p).length ≤ p := by simp
      omega
    have hpre : s.take p <+: s.takeWhile (fun x => !pySpace x) :=
      List.prefix_of_prefix_length_le (List.take_prefix p s) (List.takeWhile_prefix _) hlen
    have := List.mem_takeWhile_imp (hpre.subset h1)
    simpa using this
  · rcases extLen_some hext with ⟨heq, _⟩ | ⟨heq, _⟩
    · rw [heq] at h1
      have hall : ∀ c ∈ ".yaml".toList, pySpace c = false := by decide
      exact hall c h1
    · rw [heq] at h1
      have hall : ∀ c ∈ ".yml".toList, pySpace c = false := by decide
      exact hall c h1

/-- A match found at position 0: non-whitespace, a subset of the text, and of
the shape "non-empty stem + recognized extension". -/
theorem searchFrom0_cases {s m : List Char} (h : searchFrom0 s = some m) :
    (∀ c ∈ m, pySpace c = false) ∧ m ⊆ s ∧
      ∃ u ext, m = u ++ ext ∧ u ≠ [] ∧
        (ext = ".yaml".toList ∨ ext = ".yml".toList) := by
  cases s with
  | nil => simp [searchFrom0] at h
  | cons c t =>
    unfold searchFrom0 at h
    dsimp only at h
    by_cases hc : pySpace c = true
    · rw [if_pos hc] at h; cases h
    · rw [if_neg hc] at h
      refine ⟨bestSplit_no_ws le_rfl h, ?_, ?_⟩
      · obtain ⟨p, v, hp1, hpn, hext, hm, _⟩ := bestSplit_some_shape (c :: t) _ m h
        subst hm
        exact List.take_subset _ _
      · obtain ⟨p, v, hp1, hpn, hext, hm, _⟩ := bestSplit_some_shape (c :: t) _ m h
        refine ⟨(c :: t).take p, ((c :: t).drop p).take v, ?_, ?_, ?_⟩
        · rw [hm]
          exact List.take_add _ p v
        · obtain ⟨p', rfl⟩ : ∃ p', p = p' + 1 := ⟨p - 1, by omega⟩
          simp [List.take_cons]
        · rcases extLen_some hext with ⟨heq, _⟩ | ⟨heq, _⟩
          · exact Or.inl heq
          · exact Or.inr heq

/-- Any successful search result: non-whitespace, a subset of the text, and
of the shape "non-empty stem + recognized extension". -/
theorem searchYamlPath_props :
    ∀ {s m : List Char}, searchYamlPath s = some m →
      (∀ c ∈ m, pySpace c = false) ∧ m ⊆ s ∧
        ∃ u ext, m = u ++ ext ∧ u ≠ [] ∧
          (ext = ".yaml".toList ∨ ext = ".yml".toList) := by
  intro s
  induction s with
  | nil => intro m h; simp [searchYamlPath] at h
  | cons c t ih =>
    intro m h
    unfold searchYamlPath at h
    cases hf : searchFrom0 (c :: t) with
    | some mm =>
      rw [hf] at h
      cases h
      exact searchFrom0_cases hf
    | none =>
      rw [hf] at h
      obtain ⟨h1, h2, h3⟩ := ih h
      exact ⟨h1, fun x hx => List.mem_cons_of_mem c (h2 hx), h3⟩

/-- A whitespace-free string of the shape "non-empty stem + recognized
extension" is its own search result: the anchored scan matches it whole. -/
theorem searchYamlPath_self {u ext : List Char} (hu : u ≠ [])
    (hext : ext = ".yaml".toList ∨ ext = ".yml".toList)
    (hws : ∀ c ∈ u ++ ext, pySpace c = false) :
    searchYamlPath (u ++ ext) = some (u ++ ext) := by
  obtain ⟨c, u', rfl⟩ : ∃ c u', u = c :: u' := by
    cases u with
    | nil => exact absurd rfl hu
    | cons c u' => exact ⟨c, u', rfl⟩
  have hcw : pySpace c = false := hws c (by simp)
  have hbest : bestSplit ((c :: u') ++ ext) ((c :: u') ++ ext).length =
      some (((c :: u') ++ ext).take ((c :: u').length + ext.length)) := by
    apply bestSplit_complete
    · simp
    · simp
    · rw [List.drop_left]
      rcases hext with h | h <;> (subst h; decide)
    · intro q hq1 hq2
      obtain ⟨k, rfl⟩ : ∃ k, q = (c :: u').length + (k + 1) :=
        ⟨q - (c :: u').length - 1, by simp only [List.length_cons] at hq1 ⊢; omega⟩
      rw [List.drop_append]
      rcases hext with h | h
      · subst h; exact extLen_drop_yaml k
      · subst h; exact extLen_drop_yml k
  rw [show (c :: u').length + ext.length = ((c :: u') ++ ext).length by simp; omega,
    List.take_length] at hbest
  have htw : ((c :: u') ++ ext).takeWhile (fun x => !pySpace x) = (c :: u') ++ ext :=
    takeWhile_all _ _ fun x hx => by simp [hws x hx]
  have hsf : searchFrom0 ((c :: u') ++ ext) = some ((c :: u') ++ ext) := by
    show searchFrom0 (c :: (u' ++ ext)) = some ((c :: u') ++ ext)
    unfold searchFrom0
    dsimp only
    rw [if_neg (by simp [hcw])]
    have : (List.takeWhile (fun x => !pySpace x) (c :: (u' ++ ext))).length =
        ((c :: u') ++ ext).length := by
      rw [show c :: (u' ++ ext) = (c :: u') ++ ext from rfl, htw]
    rw [this]
    exact hbest
  show searchYamlPath (c :: (u' ++ ext)) = some ((c :: u') ++ ext)
  unfold searchYamlPath
  rw [show c :: (u' ++ ext) = (c :: u') ++ ext from rfl, hsf]

/-- On an already-clean reference (no `#`, no `?`, already stripped, no
case-insensitive `file:` prefix) the sanitizer reduces to the extension
search alone. -/
theorem sanitize_of_clean (s : List Char)
    (h1 : ∀ c ∈ s, c ≠ '#')
    (h2 : strip s = s)
    (h3 : '?' ∉ s)
    (h4 : "file:".toList.isPrefixOf (s.map Char.toLower) = false) :
    sanitize s = match searchYamlPath s with
      | some m => m
      | none => s := by
  unfold sanitize
  dsimp only
  have e1 : s.takeWhile (fun c => c != '#') = s :=
    takeWhile_all _ s fun c hc => bne_iff_ne.mpr (h1 c hc)
  rw [e1, h2]
  have e3 : s.contains '?' = false := by
    by_cases h : s.contains '?' = true
    · exact absurd (List.elem_iff.mp h) h3
    · exact Bool.eq_false_iff.mpr h
  rw [e3]
  simp only [Bool.false_eq_true, if_false]
  rw [h4]
  simp only [Bool.false_eq_true, if_false]

/-- C5, counterexample: sanitization strips only one `file:` prefix, so the
raw target `"file:file:a.yaml"` sanitizes to `"file:a.yaml"` — which still
starts with a case-insensitive `file:` prefix, refuting the prefix clause —
and a second sanitization pass strips the surviving prefix, refuting
idempotence: `sanitize (sanitize R) = "a.yaml" ≠ "file:a.yaml" = sanitize R`. -/
theorem claim_C5_counterexample :
    sanitize "file:file:a.yaml".toList = "file:a.yaml".toList ∧
    "file:".toList.isPrefixOf ((sanitize "file:file:a.yaml".toList).map Char.toLower) = true ∧
    sanitize (sanitize "file:file:a.yaml".toList) ≠ sanitize "file:file:a.yaml".toList := by
  refine ⟨by decide, by decide, by decide⟩

/-- C5, amended: for every raw target `R`, `sanitize R` contains no `#` and
no `?`; and whenever `sanitize R` does not start with a case-insensitive
`file:` prefix, sanitization is idempotent: `sanitize (sanitize R) =
sanitize R`.  (Unconditional idempotence and the absence of a `file:` prefix
fail only because the single prefix-strip removes one `file:` layer per
pass.) -/
theorem claim_C5_sanitizer (R : List Char) :
    '#' ∉ sanitize R ∧ '?' ∉ sanitize R ∧
    ("file:".toList.isPrefixOf ((sanitize R).map Char.toLower) = false →
      sanitize (sanitize R) = sanitize R) := by
  set raw2 := strip (R.takeWhile (fun c => c != '#')) with hraw2
  set path1 :=
    (if raw2.contains '?' then strip (raw2.takeWhile (fun c => c != '?')) else raw2)
    with hpath1
  set path2 :=
    (if "file:".toList.isPrefixOf (path1.map Char.toLower) then strip (path1.drop 5)
     else path1) with hpath2
  have hsan : sanitize R = match searchYamlPath path2 with
      | some m => m
      | none => path2 := by
    rw [hpath2, hpath1, hraw2]
    unfold sanitize
    dsimp only
  have hh2 : ∀ c ∈ raw2, c ≠ '#' := by
    intro c hc
    rw [hraw2] at hc
    have h0 : c ∈ List.takeWhile (fun x => x != '#') R := mem_strip hc
    have h1 := List.mem_takeWhile_imp h0
    exact bne_iff_ne.mp h1
  have hq1 : '?' ∉ path1 := by
    rw [hpath1]
    by_cases hc : raw2.contains '?' = true
    · rw [if_pos hc]
      intro hmem
      have h0 : '?' ∈ List.takeWhile (fun x => x != '?') raw2 := mem_strip hmem
      have h1 := List.mem_takeWhile_imp h0
      exact bne_iff_ne.mp h1 rfl
    · rw [if_neg hc]
      intro hmem
      exact hc (List.elem_iff.mpr hmem)
  have hsub1 : ∀ c ∈ path1, c ∈ raw2 := by
    rw [hpath1]
    by_cases hc : raw2.contains '?' = true
    · rw [if_pos hc]
      intro c hcm
      exact (List.takeWhile_sublist _).subset (mem_strip hcm)
    · rw [if_neg hc]
      exact fun c h => h
  have hsub2 : ∀ c ∈ path2, c ∈ path1 := by
    rw [hpath2]
    by_cases hf : "file:".toList.isPrefixOf (path1.map Char.toLower) = true
    · rw [if_pos hf]
      intro c hcm
      exact List.drop_subset _ _ (mem_strip hcm)
    · rw [if_neg hf]
      exact fun c h => h
  have hst2 : strip path2 = path2 := by
    rw [hpath2]
    by_cases hf : "file:".toList.isPrefixOf (path1.map Char.toLower) = true
    · rw [if_pos hf]
      exact strip_idem _
    · rw [if_neg hf, hpath1]
      by_cases hc : raw2.contains '?' = true
      · rw [if_pos hc]
        exact strip_idem _
      · rw [if_neg hc, hraw2]
        exact strip_idem _
  have hh_p2 : '#' ∉ path2 := fun h => hh2 '#' (hsub1 _ (hsub2 _ h)) rfl
  have hq_p2 : '?' ∉ path2 := fun h => hq1 (hsub2 _ h)
  cases hsr : searchYamlPath path2 with
  | none =>
    rw [hsan, hsr]
    dsimp only
    refine ⟨hh_p2, hq_p2, ?_⟩
    intro hfile
    rw [sanitize_of_clean path2 (fun c hc hne => hh_p2 (hne ▸ hc)) hst2 hq_p2 hfile, hsr]
  | some m =>
    rw [hsan, hsr]
    dsimp only
    obtain ⟨hws, hsub, u, ext, hmeq, hu, hext⟩ := searchYamlPath_props hsr
    have hh_m : '#' ∉ m := fun h => hh_p2 (hsub h)
    have hq_m : '?' ∉ m := fun h => hq_p2 (hsub h)
    refine ⟨hh_m, hq_m, ?_⟩
    intro hfile
    rw [sanitize_of_clean m (fun c hc hne => hh_m (hne ▸ hc)) (strip_no_ws m hws) hq_m hfile]
    rw [hmeq, searchYamlPath_self hu hext (hmeq ▸ hws)]

/-- Witness for C5 (amended): the spec's own stripping example.  The raw
target `"file: steps/a.yaml?v=2 # note"` sanitizes to `"steps/a.yaml"`,
which contains no `#`, no `?`, has no `file:` prefix, and is a fixed point
of the sanitizer. -/
theorem claim_C5_witness :
    sanitize "file: steps/a.yaml?v=2 # note".toList = "steps/a.yaml".toList ∧
    '#' ∉ sanitize "file: steps/a.yaml?v=2 # note".toList ∧
    '?' ∉ sanitize "file: steps/a.yaml?v=2 # note".toList ∧
    "file:".toList.isPrefixOf
      ((sanitize "file: steps/a.yaml?v=2 # note".toList).map Char.toLower) = false ∧
    sanitize (sanitize "file: steps/a.yaml?v=2 # note".toList) =
      sanitize "file: steps/a.yaml?v=2 # note".toList :=
  ⟨by decide,
    (claim_C5_sanitizer "file: steps/a.yaml?v=2 # note".toList).1,
    (claim_C5_sanitizer "file: steps/a.yaml?v=2 # note".toList).2.1,
    by decide,
    (claim_C5_sanitizer "file: steps/a.yaml?v=2 # note".toList).2.2 (by decide)⟩
